import Mathlib

/-!
Verification of the Timeline Alignment Engine of the
animation-streamer-example repository.

The data model (`MotionType`, `ClipAsset`, `AudioSegment`,
`TimelinePlacement`, `TalkPlan`, `TimelinePlan`) is embedded from
`src/types.ts`; `loadClipAsset` is embedded from `src/App.tsx`.
The engine entry points `analyzeAudio`, `buildTimelinePlan` and
`buildAlignedAudioBuffer` are imported by `src/App.tsx` from
`./lib/audio` and `./lib/timeline`, files that are not part of the
sources at hand, so they are modelled from the specification
(sections 4.1-4.5, 6 and 7 of the design document); each such
definition carries a doc comment saying so.

Seconds and sample values are modelled as exact rationals; JavaScript
floating point drift is outside the model, so the spec's "up to
floating-point tolerance" clauses become exact equalities.
-/

/-- The motion categories of `src/types.ts` (`MotionType`). -/
inductive MotionType where
  | idle
  | idleToSpeech
  | speechLoopLarge
  | speechLoopSmall
  | speechToIdle
deriving DecidableEq, Repr

/-- A clip asset as in `src/types.ts` (`ClipAsset`); the browser `File`
and object-URL fields are opaque to the engine and are omitted. -/
structure ClipAsset where
  id : String
  name : String
  duration : ℚ
  type : MotionType
deriving DecidableEq, Repr

/-- The two segment kinds of `AudioSegment.kind` in `src/types.ts`. -/
inductive SegmentKind where
  | idle
  | talk
deriving DecidableEq, Repr

/-- An audio segment as in `src/types.ts` (`AudioSegment`). -/
structure AudioSegment where
  id : String
  kind : SegmentKind
  start : ℚ
  duration : ℚ
deriving DecidableEq, Repr

/-- A clip placement as in `src/types.ts` (`TimelinePlacement`). -/
structure TimelinePlacement where
  clip : ClipAsset
  start : ℚ
deriving DecidableEq, Repr

/-- Per-talk-segment timing record as in `src/types.ts` (`TalkPlan`). -/
structure TalkPlan where
  segmentId : String
  videoStart : ℚ
  videoEnd : ℚ
  audioStart : ℚ
  audioDuration : ℚ
deriving DecidableEq, Repr

/-- The plan record as in `src/types.ts` (`TimelinePlan`). -/
structure TimelinePlan where
  placements : List TimelinePlacement
  talkPlans : List TalkPlan
  totalDuration : ℚ
deriving DecidableEq, Repr

/-- A decoded audio buffer: sample rate in Hz plus the (channel-combined)
sample list handed to the engine by the decode collaborator. -/
structure DecodedAudio where
  sampleRate : ℕ
  samples : List ℚ
deriving DecidableEq, Repr

/-- Duration in seconds of a decoded buffer, derived as in the spec's
data model (`duration (seconds, derived)`). -/
def audioDuration (a : DecodedAudio) : ℚ :=
  (a.samples.length : ℚ) / (a.sampleRate : ℚ)

/-- Modelled from the spec: section 4.1 fixes the reference envelope
window at 80 ms of samples; at least one sample per window. -/
def windowSampleCount (rate : ℕ) : ℕ :=
  max 1 (rate * 2 / 25)

/-- Splits the sample list into consecutive chunks; `budget` counts how
many more samples fit into the open chunk after the next one. -/
def chunkGo (cap : ℕ) : List ℚ → List ℚ → ℕ → List (List ℚ)
  | [], acc, _ => if acc.isEmpty then [] else [acc.reverse]
  | x :: xs, acc, 0 => (x :: acc).reverse :: chunkGo cap xs [] (cap - 1)
  | x :: xs, acc, Nat.succ budget => chunkGo cap xs (x :: acc) budget

/-- Modelled from the spec: section 4.1, non-overlapping fixed-size
windows, the last partial window kept with its true size. -/
def chunkSamples (rate : ℕ) (samples : List ℚ) : List (List ℚ) :=
  chunkGo (windowSampleCount rate) samples [] (windowSampleCount rate - 1)

/-- One envelope window: its loudness and its true duration in seconds. -/
structure EnvelopeFrame where
  loudness : ℚ
  duration : ℚ
deriving DecidableEq, Repr

/-- Modelled from the spec: section 4.1 defines window loudness as the
root-mean-square of sample magnitudes; the model works with the mean of
squares, the square of the RMS, which the monotone square root maps onto
the RMS scale, so threshold comparisons are preserved. -/
def meanSquare (chunk : List ℚ) : ℚ :=
  (chunk.map (fun x => x * x)).sum / (chunk.length : ℚ)

/-- Modelled from the spec: the Envelope Analyzer of section 4.1. -/
def envelopeFrames (a : DecodedAudio) : List EnvelopeFrame :=
  (chunkSamples a.sampleRate a.samples).map
    (fun chunk => ⟨meanSquare chunk, (chunk.length : ℚ) / (a.sampleRate : ℚ)⟩)

/-- Largest observed window loudness, zero for an empty envelope. -/
def peakLoudness (frames : List EnvelopeFrame) : ℚ :=
  (frames.map (fun f => f.loudness)).foldr max 0

/-- Modelled from the spec: section 4.2 leaves the statistical threshold
rule a policy parameter constrained by `talkThreshold > silenceThreshold`;
the model places the talk threshold near the loud end of the observed
distribution. -/
def talkThresholdOf (frames : List EnvelopeFrame) : ℚ :=
  peakLoudness frames / 2 + 1 / 100

/-- Modelled from the spec: the low threshold near the quiet end of the
observed loudness distribution (section 4.2). -/
def silenceThresholdOf (frames : List EnvelopeFrame) : ℚ :=
  peakLoudness frames / 4

/-- The two states of the hysteresis classifier of section 4.2. -/
inductive HState where
  | Idle
  | Talk
deriving DecidableEq, Repr

/-- Modelled from the spec: one hysteresis transition (section 4.2).
In `Idle`, move to `Talk` only when loudness is at least the talk
threshold; in `Talk`, move to `Idle` only when loudness is below the
silence threshold. -/
def hstep (talkT silenceT : ℚ) : HState → ℚ → HState
  | .Idle, x => if talkT ≤ x then .Talk else .Idle
  | .Talk, x => if x < silenceT then .Idle else .Talk

/-- The segment kind a classifier state labels a window with. -/
def kindOfState : HState → SegmentKind
  | .Idle => .idle
  | .Talk => .talk

/-- Modelled from the spec: runs the hysteresis machine over the
envelope, labelling every window with the kind of the state reached on
it, paired with the window's duration. -/
def labelFrames (talkT silenceT : ℚ) : HState → List EnvelopeFrame → List (SegmentKind × ℚ)
  | _, [] => []
  | s, f :: rest =>
      let s2 := hstep talkT silenceT s f.loudness
      (kindOfState s2, f.duration) :: labelFrames talkT silenceT s2 rest

/-- Modelled from the spec: merges adjacent equal labels (section 4.2,
"merges adjacent equal labels into Segments"). -/
def mergeRuns : List (SegmentKind × ℚ) → List (SegmentKind × ℚ)
  | [] => []
  | r :: rest =>
      match mergeRuns rest with
      | [] => [r]
      | r2 :: tail =>
        if r.1 = r2.1 then (r.1, r.2 + r2.2) :: tail else r :: r2 :: tail

/-- Converts merged runs into `AudioSegment`s with consecutive starts
and sequentially generated ids. -/
def runsToSegments (i : ℕ) (t : ℚ) : List (SegmentKind × ℚ) → List AudioSegment
  | [] => []
  | r :: rest =>
      ⟨"seg-" ++ toString i, r.1, t, r.2⟩ :: runsToSegments (i + 1) (t + r.2) rest

/-- Modelled from the spec: the Segment Classifier of section 4.2,
initial state `Idle`. -/
def classifyEnvelope (talkT silenceT : ℚ) (frames : List EnvelopeFrame) : List AudioSegment :=
  runsToSegments 0 0 (mergeRuns (labelFrames talkT silenceT .Idle frames))

/-- The value returned by `analyzeAudio`: segments plus the two
thresholds reported for observability (spec section 6). -/
structure AudioAnalysisResult where
  segments : List AudioSegment
  talkThreshold : ℚ
  silenceThreshold : ℚ
deriving DecidableEq, Repr

/-- Modelled from the spec: the `analyze` entry point of section 6,
composing the Envelope Analyzer and the Segment Classifier; the
implementation in `src/lib/audio.ts` is not among the sources. -/
def analyzeAudio (a : DecodedAudio) : AudioAnalysisResult :=
  let frames := envelopeFrames a
  ⟨classifyEnvelope (talkThresholdOf frames) (silenceThresholdOf frames) frames,
   talkThresholdOf frames, silenceThresholdOf frames⟩

/-- The planner's single error kind (spec section 7). -/
inductive PlanError where
  | missingCategory (t : MotionType)
deriving DecidableEq, Repr

/-- Result of a fallible planning step: either a value or a `PlanError`,
mirroring the `throw` in `buildTimelinePlan` caught by `src/App.tsx`. -/
inductive PlanResult (α : Type) where
  | ok (value : α)
  | error (e : PlanError)
deriving DecidableEq, Repr

/-- The clips of the inventory carrying the requested category. -/
def clipsOfType (t : MotionType) (inv : List ClipAsset) : List ClipAsset :=
  inv.filter (fun c => decide (c.type = t))

/-- Total duration of a clip list. -/
def sumDurations (cs : List ClipAsset) : ℚ :=
  (cs.map (fun c => c.duration)).sum

/-- How many repetitions of a clip of duration `dur` cover `target`
seconds, never fewer than one (spec section 4.4, edge cases: a short
talk segment still receives one full loop clip). -/
def loopCount (target dur : ℚ) : ℕ :=
  max 1 (Int.toNat (Rat.ceil (target / dur)))

/-- Modelled from the spec: the repeat-same-clip looping policy of the
Clip Selector (section 4.3), deterministic and stable; a clip without a
positive duration is used once, since looping it cannot make progress. -/
def repeatToCover (c : ClipAsset) (target : ℚ) : List ClipAsset :=
  if c.duration ≤ 0 then [c] else List.replicate (loopCount target c.duration) c

/-- Modelled from the spec: the Clip Selector for one category
(section 4.3): signals `MissingCategory` when no clip of the category
exists, else loops the first registered clip of it over the target. -/
def selectCategory (t : MotionType) (target : ℚ) (inv : List ClipAsset) :
    PlanResult (List ClipAsset) :=
  match clipsOfType t inv with
  | [] => .error (.missingCategory t)
  | c :: _ => .ok (repeatToCover c target)

/-- Modelled from the spec: speech-loop selection with the explicitly
allowed `speechLoopSmall` / `speechLoopLarge` interchange (section 4.3). -/
def selectSpeechLoop (target : ℚ) (inv : List ClipAsset) : PlanResult (List ClipAsset) :=
  match clipsOfType .speechLoopSmall inv with
  | c :: _ => .ok (repeatToCover c target)
  | [] =>
    match clipsOfType .speechLoopLarge inv with
    | c :: _ => .ok (repeatToCover c target)
    | [] => .error (.missingCategory .speechLoopSmall)

/-- Lays clips out back to back from `start`, returning the placements
and the video cursor after them. -/
def placeRun (start : ℚ) : List ClipAsset → List TimelinePlacement × ℚ
  | [] => ([], start)
  | c :: cs =>
      let rest := placeRun (start + c.duration) cs
      (⟨c, start⟩ :: rest.1, rest.2)

/-- The Timeline Planner's running state (spec section 4.4): the two
cursors plus the accumulated outputs. -/
structure PlanState where
  videoCursor : ℚ
  audioCursor : ℚ
  placements : List TimelinePlacement
  talkPlans : List TalkPlan
deriving DecidableEq, Repr

/-- Modelled from the spec: one step of the Timeline Planner
(section 4.4). An idle segment absorbs surplus silently; a talk segment
gets a transition-in clip, speech loops covering at least its duration,
and a transition-out clip, and records a `TalkPlan`. -/
def stepSegment (inv : List ClipAsset) (st : PlanState) (seg : AudioSegment) :
    PlanResult PlanState :=
  match seg.kind with
  | .idle =>
    match selectCategory .idle seg.duration inv with
    | .error e => .error e
    | .ok clips =>
      let placed := placeRun st.videoCursor clips
      .ok ⟨placed.2, st.audioCursor + seg.duration, st.placements ++ placed.1, st.talkPlans⟩
  | .talk =>
    match selectCategory .idleToSpeech 0 inv with
    | .error e => .error e
    | .ok intro =>
      match selectSpeechLoop seg.duration inv with
      | .error e => .error e
      | .ok loops =>
        match selectCategory .speechToIdle 0 inv with
        | .error e => .error e
        | .ok outro =>
          let placed := placeRun st.videoCursor (intro ++ loops ++ outro)
          .ok ⟨placed.2, st.audioCursor + seg.duration,
               st.placements ++ placed.1,
               st.talkPlans ++ [⟨seg.id, st.videoCursor, placed.2, st.audioCursor, seg.duration⟩]⟩

/-- Left-to-right walk over the segment list, failing fast on the first
missing category (spec section 7). -/
def planFold (inv : List ClipAsset) : PlanState → List AudioSegment → PlanResult PlanState
  | st, [] => .ok st
  | st, seg :: rest =>
    match stepSegment inv st seg with
    | .error e => .error e
    | .ok st2 => planFold inv st2 rest

/-- Modelled from the spec: the `plan` entry point (section 6), called
`buildTimelinePlan` by `src/App.tsx`; its implementation in
`src/lib/timeline.ts` is not among the sources. Both cursors start at
zero and the plan's total duration is the final video cursor. -/
def buildTimelinePlan (segments : List AudioSegment) (inv : List ClipAsset) :
    PlanResult TimelinePlan :=
  match planFold inv ⟨0, 0, [], []⟩ segments with
  | .error e => .error e
  | .ok st => .ok ⟨st.placements, st.talkPlans, st.videoCursor⟩

/-- A realigned or source audio buffer at the sample level. -/
structure AudioBuffer where
  sampleRate : ℕ
  samples : List ℚ
deriving DecidableEq, Repr

/-- Converts a time in seconds to a sample index at the given rate. -/
def secToIndex (rate : ℕ) (t : ℚ) : ℕ :=
  Int.toNat (Int.floor (t * (rate : ℚ)))

/-- Sample index of a talk timing's video start. -/
def talkVideoStartIdx (rate : ℕ) (tp : TalkPlan) : ℕ :=
  secToIndex rate tp.videoStart

/-- Sample index of a talk timing's video end. -/
def talkVideoEndIdx (rate : ℕ) (tp : TalkPlan) : ℕ :=
  secToIndex rate tp.videoEnd

/-- Sample index of a talk timing's audio start. -/
def talkAudioStartIdx (rate : ℕ) (tp : TalkPlan) : ℕ :=
  secToIndex rate tp.audioStart

/-- Number of samples copied for a talk timing: the audio duration in
samples, truncated so the write never reaches the video end index
(spec section 4.5). -/
def talkCopyLen (rate : ℕ) (tp : TalkPlan) : ℕ :=
  min (secToIndex rate tp.audioDuration) (talkVideoEndIdx rate tp - talkVideoStartIdx rate tp)

/-- `cnt` source samples starting at `start`, with silence past the
source's end. -/
def sliceFrom (src : List ℚ) (start cnt : ℕ) : List ℚ :=
  (List.range cnt).map (fun k => src.getD (start + k) 0)

/-- Overwrites `out` from position `pos` with `vals`, keeping the
length; values that would fall past the end are dropped. -/
def writeAt : List ℚ → ℕ → List ℚ → List ℚ
  | [], _, _ => []
  | x :: xs, 0, [] => x :: xs
  | _ :: xs, 0, v :: vs => v :: writeAt xs 0 vs
  | x :: xs, Nat.succ p, vals => x :: writeAt xs p vals

/-- Modelled from the spec: copies one talk timing's source slice to its
video-domain position (section 4.5). -/
def writeTalk (rate : ℕ) (src : List ℚ) (out : List ℚ) (tp : TalkPlan) : List ℚ :=
  writeAt out (talkVideoStartIdx rate tp)
    (sliceFrom src (talkAudioStartIdx rate tp) (talkCopyLen rate tp))

/-- Modelled from the spec: the `realign` entry point (sections 4.5
and 6), called `buildAlignedAudioBuffer` by `src/App.tsx`; its
implementation in `src/lib/audio.ts` is not among the sources. Output
starts as silence of the planned total duration and every talk timing's
slice is copied in. -/
def buildAlignedAudioBuffer (src : AudioBuffer) (talks : List TalkPlan)
    (totalDuration : ℚ) : AudioBuffer :=
  ⟨src.sampleRate,
   talks.foldl (writeTalk src.sampleRate src.samples)
     (List.replicate (secToIndex src.sampleRate totalDuration) 0)⟩

/-- The video metadata duration read by `readVideoDuration` in
`src/App.tsx`: either a finite numeric value or a non-finite reading
(`NaN` or an infinity). -/
inductive MetaDuration where
  | finite (value : ℚ)
  | nonFinite
deriving DecidableEq, Repr

/-- The duration sanitization of `loadClipAsset` in `src/App.tsx`:
`Number.isFinite(duration) && duration > 0 ? duration : 1`. -/
def sanitizeClipDuration : MetaDuration → ℚ
  | .finite v => if 0 < v then v else 1
  | .nonFinite => 1

/-- `loadClipAsset` from `src/App.tsx`, restricted to the fields the
engine sees: the clip id, name and category are taken as given and the
duration is the sanitized metadata reading. -/
def loadClipAsset (idv nm : String) (t : MotionType) (m : MetaDuration) : ClipAsset :=
  ⟨idv, nm, sanitizeClipDuration m, t⟩

/-- The segments starting at `t` are contiguous: each starts where the
previous one ends. -/
def SegmentsFrom : ℚ → List AudioSegment → Prop
  | _, [] => True
  | t, s :: rest => s.start = t ∧ SegmentsFrom (t + s.duration) rest

/-- Decision procedure for `SegmentsFrom`. -/
def decSegmentsFrom : (t : ℚ) → (l : List AudioSegment) → Decidable (SegmentsFrom t l)
  | _, [] => .isTrue trivial
  | t, s :: rest =>
    have : Decidable (SegmentsFrom (t + s.duration) rest) := decSegmentsFrom _ rest
    inferInstanceAs (Decidable (_ ∧ _))

instance (t : ℚ) (l : List AudioSegment) : Decidable (SegmentsFrom t l) :=
  decSegmentsFrom t l

/-- The placements starting at `t` are contiguous and gapless: each
starts where the previous one's clip ends. -/
def PlacementsFrom : ℚ → List TimelinePlacement → Prop
  | _, [] => True
  | t, p :: rest => p.start = t ∧ PlacementsFrom (t + p.clip.duration) rest

/-- Decision procedure for `PlacementsFrom`. -/
def decPlacementsFrom : (t : ℚ) → (l : List TimelinePlacement) → Decidable (PlacementsFrom t l)
  | _, [] => .isTrue trivial
  | t, p :: rest =>
    have : Decidable (PlacementsFrom (t + p.clip.duration) rest) := decPlacementsFrom _ rest
    inferInstanceAs (Decidable (_ ∧ _))

instance (t : ℚ) (l : List TimelinePlacement) : Decidable (PlacementsFrom t l) :=
  decPlacementsFrom t l

/-- Total clip duration of a placement list. -/
def placementsTotal (ps : List TimelinePlacement) : ℚ :=
  (ps.map (fun p => p.clip.duration)).sum

/-! ### Envelope and classifier lemmas -/

lemma chunkGo_length_sum (cap : ℕ) :
    ∀ (xs acc : List ℚ) (k : ℕ),
      ((chunkGo cap xs acc k).map List.length).sum = xs.length + acc.length
  | [], acc, k => by
      by_cases h : acc.isEmpty
      · simp [chunkGo, h, List.isEmpty_iff.mp h]
      · simp [chunkGo, h]
  | x :: xs, acc, 0 => by
      have ih := chunkGo_length_sum cap xs [] (cap - 1)
      simp only [chunkGo, List.map_cons, List.sum_cons, List.length_reverse,
        List.length_cons, List.length_nil, ih]
      omega
  | x :: xs, acc, Nat.succ k => by
      have ih := chunkGo_length_sum cap xs (x :: acc) k
      simp only [chunkGo, ih, List.length_cons]
      omega

lemma chunkSamples_length_sum (rate : ℕ) (samples : List ℚ) :
    ((chunkSamples rate samples).map List.length).sum = samples.length := by
  simpa using chunkGo_length_sum (windowSampleCount rate) samples [] (windowSampleCount rate - 1)

lemma list_sum_map_div (l : List ℕ) (r : ℚ) :
    (l.map (fun n : ℕ => (n : ℚ) / r)).sum = ((l.sum : ℕ) : ℚ) / r := by
  induction l with
  | nil => simp
  | cons n t ih =>
    simp only [List.map_cons, List.sum_cons, ih, Nat.cast_add]
    rw [add_div]

lemma envelopeFrames_duration_sum (a : DecodedAudio) :
    ((envelopeFrames a).map (fun f => f.duration)).sum = audioDuration a := by
  rw [envelopeFrames, List.map_map]
  have h1 : ((fun f : EnvelopeFrame => f.duration) ∘
      fun chunk : List ℚ =>
        (⟨meanSquare chunk, (chunk.length : ℚ) / (a.sampleRate : ℚ)⟩ : EnvelopeFrame)) =
      (fun n : ℕ => (n : ℚ) / (a.sampleRate : ℚ)) ∘ List.length := rfl
  rw [h1, ← List.map_map (fun n : ℕ => (n : ℚ) / (a.sampleRate : ℚ)) List.length,
    list_sum_map_div, chunkSamples_length_sum, audioDuration]

lemma envelopeFrames_duration_nonneg (a : DecodedAudio) :
    ∀ f ∈ envelopeFrames a, 0 ≤ f.duration := by
  intro f hf
  simp only [envelopeFrames, List.mem_map] at hf
  obtain ⟨chunk, _, rfl⟩ := hf
  exact div_nonneg (by positivity) (by positivity)

lemma labelFrames_durations (talkT silenceT : ℚ) :
    ∀ (s : HState) (frames : List EnvelopeFrame),
      (labelFrames talkT silenceT s frames).map (fun r => r.2) =
        frames.map (fun f => f.duration)
  | _, [] => rfl
  | s, f :: rest => by
      simp [labelFrames, labelFrames_durations talkT silenceT _ rest]

lemma labelFrames_length (talkT silenceT : ℚ) :
    ∀ (s : HState) (frames : List EnvelopeFrame),
      (labelFrames talkT silenceT s frames).length = frames.length
  | _, [] => rfl
  | s, f :: rest => by
      simp [labelFrames, labelFrames_length talkT silenceT _ rest]

lemma labelFrames_nonneg (talkT silenceT : ℚ) (s : HState) (frames : List EnvelopeFrame)
    (hf : ∀ f ∈ frames, 0 ≤ f.duration) :
    ∀ r ∈ labelFrames talkT silenceT s frames, 0 ≤ r.2 := by
  intro r hr
  have hm : r.2 ∈ (labelFrames talkT silenceT s frames).map (fun r => r.2) :=
    List.mem_map_of_mem _ hr
  rw [labelFrames_durations] at hm
  obtain ⟨f, hfm, hfe⟩ := List.mem_map.mp hm
  exact hfe ▸ hf f hfm

lemma mergeRuns_cons (r : SegmentKind × ℚ) (rest : List (SegmentKind × ℚ)) :
    mergeRuns (r :: rest) =
      match mergeRuns rest with
      | [] => [r]
      | r2 :: tail =>
        if r.1 = r2.1 then (r.1, r.2 + r2.2) :: tail else r :: r2 :: tail := rfl

lemma mergeRuns_sum (rs : List (SegmentKind × ℚ)) :
    ((mergeRuns rs).map (fun r => r.2)).sum = (rs.map (fun r => r.2)).sum := by
  induction rs with
  | nil => simp [mergeRuns]
  | cons r rest ih =>
    cases h : mergeRuns rest with
    | nil =>
      rw [h] at ih
      simp only [List.map_nil, List.sum_nil] at ih
      simp only [mergeRuns, h, List.map_cons, List.sum_cons, List.map_nil, List.sum_nil]
      rw [← ih]
    | cons r2 tail =>
      rw [h] at ih
      by_cases hk : r.1 = r2.1
      · simp only [mergeRuns, h, hk, if_true, List.map_cons, List.sum_cons] at ih ⊢
        rw [← ih]; ring
      · simp only [mergeRuns, h, hk, if_false, List.map_cons, List.sum_cons] at ih ⊢
        rw [← ih]

lemma mergeRuns_nonneg (rs : List (SegmentKind × ℚ)) (h : ∀ r ∈ rs, 0 ≤ r.2) :
    ∀ r ∈ mergeRuns rs, 0 ≤ r.2 := by
  induction rs with
  | nil => simp [mergeRuns]
  | cons r rest ih =>
    have hr : 0 ≤ r.2 := h r (List.mem_cons_self r rest)
    have hrest : ∀ x ∈ rest, 0 ≤ x.2 := fun x hx => h x (List.mem_cons_of_mem r hx)
    have ihr := ih hrest
    intro x hx
    cases hm : mergeRuns rest with
    | nil =>
      simp only [mergeRuns, hm, List.mem_singleton] at hx
      exact hx ▸ hr
    | cons r2 tail =>
      rw [hm] at ihr
      simp only [mergeRuns, hm] at hx
      by_cases hk : r.1 = r2.1
      · rw [if_pos hk] at hx
        rcases List.mem_cons.mp hx with hx1 | hx2
        · subst hx1
          have h2 : 0 ≤ r2.2 := ihr r2 (List.mem_cons_self r2 tail)
          exact add_nonneg hr h2
        · exact ihr x (List.mem_cons_of_mem r2 hx2)
      · rw [if_neg hk] at hx
        rcases List.mem_cons.mp hx with hx1 | hx2
        · exact hx1 ▸ hr
        · exact ihr x hx2

lemma mergeRuns_chain (rs : List (SegmentKind × ℚ)) :
    List.Chain' (fun a b => a.1 ≠ b.1) (mergeRuns rs) := by
  induction rs with
  | nil => simp [mergeRuns]
  | cons r rest ih =>
    cases hm : mergeRuns rest with
    | nil => simp [mergeRuns, hm]
    | cons r2 tail =>
      rw [hm] at ih
      by_cases hk : r.1 = r2.1
      · simp only [mergeRuns, hm]
        rw [if_pos hk]
        cases tail with
        | nil => simp
        | cons r3 tail2 =>
          rcases List.chain'_cons.mp ih with ⟨h23, htail⟩
          exact List.chain'_cons.mpr ⟨by simpa [hk] using h23, htail⟩
      · simp only [mergeRuns, hm]
        rw [if_neg hk]
        exact List.chain'_cons.mpr ⟨hk, ih⟩

lemma mergeRuns_const (k : SegmentKind) :
    ∀ rs : List (SegmentKind × ℚ), rs ≠ [] → (∀ r ∈ rs, r.1 = k) →
      ∃ d, mergeRuns rs = [(k, d)]
  | [], hne, _ => absurd rfl hne
  | [r], _, hk => by
      refine ⟨r.2, ?_⟩
      have hr : r = (k, r.2) := Prod.ext (hk r (List.mem_singleton_self r)) rfl
      show mergeRuns [r] = [(k, r.2)]
      simp only [mergeRuns]
      rw [← hr]
  | r :: r2 :: rest, _, hk => by
      have hr2 : ∀ x ∈ r2 :: rest, x.1 = k := fun x hx => hk x (List.mem_cons_of_mem r hx)
      obtain ⟨d, hd⟩ := mergeRuns_const k (r2 :: rest) (List.cons_ne_nil r2 rest) hr2
      refine ⟨r.2 + d, ?_⟩
      have hrk : r.1 = k := hk r (List.mem_cons_self r (r2 :: rest))
      show mergeRuns (r :: r2 :: rest) = [(k, r.2 + d)]
      rw [mergeRuns_cons, hd]
      show (if r.1 = k then [(r.1, r.2 + d)] else r :: (k, d) :: []) = [(k, r.2 + d)]
      rw [if_pos hrk, hrk]

lemma runsToSegments_from :
    ∀ (rs : List (SegmentKind × ℚ)) (i : ℕ) (t : ℚ),
      SegmentsFrom t (runsToSegments i t rs)
  | [], _, _ => trivial
  | r :: rest, i, t =>
      ⟨rfl, runsToSegments_from rest (i + 1) (t + r.2)⟩

lemma runsToSegments_durations :
    ∀ (rs : List (SegmentKind × ℚ)) (i : ℕ) (t : ℚ),
      (runsToSegments i t rs).map (fun s => s.duration) = rs.map (fun r => r.2)
  | [], _, _ => rfl
  | r :: rest, i, t => by
      simp [runsToSegments, runsToSegments_durations rest (i + 1) (t + r.2)]

lemma runsToSegments_length :
    ∀ (rs : List (SegmentKind × ℚ)) (i : ℕ) (t : ℚ),
      (runsToSegments i t rs).length = rs.length
  | [], _, _ => rfl
  | r :: rest, i, t => by
      simp [runsToSegments, runsToSegments_length rest (i + 1) (t + r.2)]

lemma runsToSegments_kind (rs : List (SegmentKind × ℚ)) (i : ℕ) (t : ℚ) :
    ∀ s ∈ runsToSegments i t rs, ∃ r ∈ rs, s.kind = r.1 ∧ s.duration = r.2 := by
  induction rs generalizing i t with
  | nil => simp [runsToSegments]
  | cons r rest ih =>
    intro s hs
    rcases List.mem_cons.mp hs with h1 | h2
    · exact ⟨r, List.mem_cons_self r rest, by subst h1; exact ⟨rfl, rfl⟩⟩
    · obtain ⟨r2, hr2, hk⟩ := ih (i + 1) (t + r.2) s h2
      exact ⟨r2, List.mem_cons_of_mem r hr2, hk⟩

lemma runsToSegments_chain_kind :
    ∀ (rs : List (SegmentKind × ℚ)) (i : ℕ) (t : ℚ),
      List.Chain' (fun a b => a.1 ≠ b.1) rs →
      List.Chain' (fun s1 s2 => s1.kind ≠ s2.kind) (runsToSegments i t rs) := by
  intro rs
  induction rs with
  | nil => intro i t _; simp [runsToSegments]
  | cons r rest ih =>
    intro i t hc
    cases rest with
    | nil => simp [runsToSegments]
    | cons r2 rest2 =>
      rcases List.chain'_cons.mp hc with ⟨h12, htail⟩
      exact List.chain'_cons.mpr ⟨h12, ih (i + 1) (t + r.2) htail⟩

lemma segmentsFrom_chain_le :
    ∀ (segs : List AudioSegment) (t : ℚ),
      SegmentsFrom t segs → (∀ s ∈ segs, 0 ≤ s.duration) →
      List.Chain' (fun a b => a.start ≤ b.start) segs := by
  intro segs
  induction segs with
  | nil => intro t _ _; simp
  | cons s rest ih =>
    intro t hsf hnn
    rcases hsf with ⟨hst, hrest⟩
    cases rest with
    | nil => simp
    | cons s2 rest2 =>
      rcases hrest with ⟨hst2, hrest2⟩
      have hd : 0 ≤ s.duration := hnn s (List.mem_cons_self _ _)
      refine List.chain'_cons.mpr ⟨?_, ?_⟩
      · rw [hst, hst2]; linarith
      · exact ih (t + s.duration) ⟨hst2, hrest2⟩
          (fun x hx => hnn x (List.mem_cons_of_mem s hx))

lemma labelFrames_all_idle (talkT silenceT : ℚ) :
    ∀ frames : List EnvelopeFrame,
      (∀ f ∈ frames, ¬ talkT ≤ f.loudness) →
      ∀ r ∈ labelFrames talkT silenceT .Idle frames, r.1 = .idle := by
  intro frames
  induction frames with
  | nil => simp [labelFrames]
  | cons f rest ih =>
    intro h r hr
    have hf : ¬ talkT ≤ f.loudness := h f (List.mem_cons_self _ _)
    have hstate : hstep talkT silenceT .Idle f.loudness = HState.Idle := by
      simp [hstep, hf]
    rw [show labelFrames talkT silenceT .Idle (f :: rest) =
        (kindOfState (hstep talkT silenceT .Idle f.loudness), f.duration) ::
          labelFrames talkT silenceT (hstep talkT silenceT .Idle f.loudness) rest from rfl,
      hstate] at hr
    rcases List.mem_cons.mp hr with h1 | h2
    · rw [h1]; rfl
    · exact ih (fun g hg => h g (List.mem_cons_of_mem f hg)) r h2

/-- C1: for every decoded audio input, the segment list returned by
`analyzeAudio` is contiguous from time zero, its durations sum to the
buffer's total duration (together: it covers `[0, totalDuration)` exactly
once), every duration is non-negative, the starts are non-decreasing, and
no two adjacent segments share a kind. -/
theorem analyze_segment_invariants (a : DecodedAudio) :
    SegmentsFrom 0 (analyzeAudio a).segments ∧
    ((analyzeAudio a).segments.map (fun s => s.duration)).sum = audioDuration a ∧
    (∀ s ∈ (analyzeAudio a).segments, 0 ≤ s.duration) ∧
    List.Chain' (fun s1 s2 => s1.start ≤ s2.start) (analyzeAudio a).segments ∧
    List.Chain' (fun s1 s2 => s1.kind ≠ s2.kind) (analyzeAudio a).segments := by
  have hseg : (analyzeAudio a).segments =
      runsToSegments 0 0 (mergeRuns (labelFrames (talkThresholdOf (envelopeFrames a))
        (silenceThresholdOf (envelopeFrames a)) .Idle (envelopeFrames a))) := rfl
  have h1 : SegmentsFrom 0 (analyzeAudio a).segments := by
    rw [hseg]; exact runsToSegments_from _ 0 0
  have hnn : ∀ s ∈ (analyzeAudio a).segments, 0 ≤ s.duration := by
    rw [hseg]
    intro s hs
    obtain ⟨r, hr, _, hdur⟩ := runsToSegments_kind _ 0 0 s hs
    exact hdur ▸ mergeRuns_nonneg _
      (labelFrames_nonneg _ _ .Idle (envelopeFrames a) (envelopeFrames_duration_nonneg a)) r hr
  refine ⟨h1, ?_, hnn, segmentsFrom_chain_le _ 0 h1 hnn, ?_⟩
  · rw [hseg, runsToSegments_durations, mergeRuns_sum, labelFrames_durations,
      envelopeFrames_duration_sum]
  · rw [hseg]
    exact runsToSegments_chain_kind _ 0 0 (mergeRuns_chain _)

/-- Witness for C1: the invariants instantiated at a concrete buffer. -/
theorem analyze_segment_invariants_witness :
    SegmentsFrom 0 (analyzeAudio ⟨25, [0, 0, 0, 0, 1, 1, 1, 1, 0, 0, 0]⟩).segments ∧
    ((analyzeAudio ⟨25, [0, 0, 0, 0, 1, 1, 1, 1, 0, 0, 0]⟩).segments.map
        (fun s => s.duration)).sum =
      audioDuration ⟨25, [0, 0, 0, 0, 1, 1, 1, 1, 0, 0, 0]⟩ ∧
    (∀ s ∈ (analyzeAudio ⟨25, [0, 0, 0, 0, 1, 1, 1, 1, 0, 0, 0]⟩).segments, 0 ≤ s.duration) ∧
    List.Chain' (fun s1 s2 => s1.start ≤ s2.start)
      (analyzeAudio ⟨25, [0, 0, 0, 0, 1, 1, 1, 1, 0, 0, 0]⟩).segments ∧
    List.Chain' (fun s1 s2 => s1.kind ≠ s2.kind)
      (analyzeAudio ⟨25, [0, 0, 0, 0, 1, 1, 1, 1, 0, 0, 0]⟩).segments :=
  analyze_segment_invariants ⟨25, [0, 0, 0, 0, 1, 1, 1, 1, 0, 0, 0]⟩

/-- C2: the classifier is the stated hysteresis machine. From `Idle` it
moves to `Talk` exactly when loudness is at least the talk threshold;
from `Talk` it moves to `Idle` exactly when loudness is below the silence
threshold; a loudness strictly between the thresholds never changes the
state; and an envelope all of whose loudness values lie strictly between
the thresholds classifies as a single unchanging (idle) segment. -/
theorem hysteresis_classifier_spec (talkT silenceT : ℚ) :
    (∀ x : ℚ, hstep talkT silenceT .Idle x = .Talk ↔ talkT ≤ x) ∧
    (∀ x : ℚ, hstep talkT silenceT .Talk x = .Idle ↔ x < silenceT) ∧
    (∀ (s : HState) (x : ℚ), silenceT < x → x < talkT → hstep talkT silenceT s x = s) ∧
    (∀ frames : List EnvelopeFrame, frames ≠ [] →
      (∀ f ∈ frames, silenceT < f.loudness ∧ f.loudness < talkT) →
      (classifyEnvelope talkT silenceT frames).length = 1 ∧
      ∀ s ∈ classifyEnvelope talkT silenceT frames, s.kind = .idle) := by
  refine ⟨?_, ?_, ?_, ?_⟩
  · intro x; by_cases h : talkT ≤ x <;> simp [hstep, h]
  · intro x; by_cases h : x < silenceT <;> simp [hstep, h]
  · intro s x h1 h2
    cases s
    · simp [hstep, not_le.mpr h2]
    · simp [hstep, not_lt.mpr (le_of_lt h1)]
  · intro frames hne hbet
    have hni : ∀ f ∈ frames, ¬ talkT ≤ f.loudness :=
      fun f hf => not_le.mpr (hbet f hf).2
    have hallidle := labelFrames_all_idle talkT silenceT frames hni
    have hlne : labelFrames talkT silenceT .Idle frames ≠ [] := by
      intro hcon
      apply hne
      have hlen := labelFrames_length talkT silenceT .Idle frames
      rw [hcon] at hlen
      exact List.length_eq_zero.mp (by simpa using hlen.symm)
    obtain ⟨d, hd⟩ := mergeRuns_const .idle _ hlne hallidle
    constructor
    · rw [classifyEnvelope, hd, runsToSegments_length]
      rfl
    · intro s hs
      rw [classifyEnvelope, hd] at hs
      simp only [runsToSegments, List.mem_singleton] at hs
      rw [hs]

/-- Witness for C2: a one-window envelope strictly between the thresholds
classifies as exactly one segment. -/
theorem hysteresis_classifier_spec_witness :
    (classifyEnvelope 20 10 [⟨15, 1⟩]).length = 1 :=
  ((hysteresis_classifier_spec 20 10).2.2.2 [⟨15, 1⟩] (by decide) (by decide)).1

/-! ### Planner lemmas -/

lemma placeRun_from : ∀ (cs : List ClipAsset) (start : ℚ),
    PlacementsFrom start (placeRun start cs).1
  | [], _ => trivial
  | c :: cs, start => ⟨rfl, placeRun_from cs (start + c.duration)⟩

lemma placeRun_end : ∀ (cs : List ClipAsset) (start : ℚ),
    (placeRun start cs).2 = start + sumDurations cs
  | [], start => by simp [placeRun, sumDurations]
  | c :: cs, start => by
      have ih := placeRun_end cs (start + c.duration)
      simp only [placeRun, ih, sumDurations, List.map_cons, List.sum_cons]
      ring

lemma placeRun_total : ∀ (cs : List ClipAsset) (start : ℚ),
    placementsTotal (placeRun start cs).1 = sumDurations cs
  | [], _ => rfl
  | c :: cs, start => by
      have ih := placeRun_total cs (start + c.duration)
      simp only [placeRun, placementsTotal, List.map_cons, List.sum_cons] at ih ⊢
      rw [ih]
      simp [sumDurations]

lemma placementsTotal_append (ps qs : List TimelinePlacement) :
    placementsTotal (ps ++ qs) = placementsTotal ps + placementsTotal qs := by
  simp [placementsTotal]

lemma placementsFrom_append : ∀ (ps qs : List TimelinePlacement) (t : ℚ),
    PlacementsFrom t ps → PlacementsFrom (t + placementsTotal ps) qs →
    PlacementsFrom t (ps ++ qs)
  | [], qs, t, _, hq => by simpa [placementsTotal] using hq
  | p :: ps, qs, t, hp, hq => by
      rcases hp with ⟨hst, hrest⟩
      refine ⟨hst, placementsFrom_append ps qs (t + p.clip.duration) hrest ?_⟩
      have harith : t + p.clip.duration + placementsTotal ps = t + placementsTotal (p :: ps) := by
        simp only [placementsTotal, List.map_cons, List.sum_cons]
        ring
      rw [harith]
      exact hq

/-- The planner-state invariant behind C3 and C7: accumulated placements
are contiguous from zero and the video cursor sits at their total end. -/
def PlanShape (st : PlanState) : Prop :=
  PlacementsFrom 0 st.placements ∧ st.videoCursor = placementsTotal st.placements

lemma shape_append_run (st : PlanState) (cs : List ClipAsset)
    (hfrom : PlacementsFrom 0 st.placements)
    (hcur : st.videoCursor = placementsTotal st.placements) :
    PlacementsFrom 0 (st.placements ++ (placeRun st.videoCursor cs).1) ∧
    (placeRun st.videoCursor cs).2 =
      placementsTotal (st.placements ++ (placeRun st.videoCursor cs).1) := by
  constructor
  · refine placementsFrom_append _ _ _ hfrom ?_
    have : (0 : ℚ) + placementsTotal st.placements = st.videoCursor := by rw [hcur]; ring
    rw [this]
    exact placeRun_from cs st.videoCursor
  · rw [placeRun_end, placementsTotal_append, placeRun_total, hcur]

lemma stepSegment_idle_eq (inv : List ClipAsset) (st : PlanState) (seg : AudioSegment)
    (hk : seg.kind = .idle) (clips : List ClipAsset)
    (hsel : selectCategory .idle seg.duration inv = .ok clips) :
    stepSegment inv st seg =
      .ok ⟨(placeRun st.videoCursor clips).2, st.audioCursor + seg.duration,
        st.placements ++ (placeRun st.videoCursor clips).1, st.talkPlans⟩ := by
  simp [stepSegment, hk, hsel]

lemma stepSegment_talk_eq (inv : List ClipAsset) (st : PlanState) (seg : AudioSegment)
    (hk : seg.kind = .talk) (cin cloop cout : List ClipAsset)
    (h1 : selectCategory .idleToSpeech 0 inv = .ok cin)
    (h2 : selectSpeechLoop seg.duration inv = .ok cloop)
    (h3 : selectCategory .speechToIdle 0 inv = .ok cout) :
    stepSegment inv st seg =
      .ok ⟨(placeRun st.videoCursor (cin ++ cloop ++ cout)).2, st.audioCursor + seg.duration,
        st.placements ++ (placeRun st.videoCursor (cin ++ cloop ++ cout)).1,
        st.talkPlans ++ [⟨seg.id, st.videoCursor,
          (placeRun st.videoCursor (cin ++ cloop ++ cout)).2, st.audioCursor, seg.duration⟩]⟩ := by
  simp [stepSegment, hk, h1, h2, h3]

lemma stepSegment_cases (inv : List ClipAsset) (st : PlanState) (seg : AudioSegment)
    (st2 : PlanState) (h : stepSegment inv st seg = .ok st2) :
    (∃ clips, seg.kind = .idle ∧ selectCategory .idle seg.duration inv = .ok clips ∧
      st2 = ⟨(placeRun st.videoCursor clips).2, st.audioCursor + seg.duration,
        st.placements ++ (placeRun st.videoCursor clips).1, st.talkPlans⟩) ∨
    (∃ cin cloop cout, seg.kind = .talk ∧
      selectCategory .idleToSpeech 0 inv = .ok cin ∧
      selectSpeechLoop seg.duration inv = .ok cloop ∧
      selectCategory .speechToIdle 0 inv = .ok cout ∧
      st2 = ⟨(placeRun st.videoCursor (cin ++ cloop ++ cout)).2, st.audioCursor + seg.duration,
        st.placements ++ (placeRun st.videoCursor (cin ++ cloop ++ cout)).1,
        st.talkPlans ++ [⟨seg.id, st.videoCursor,
          (placeRun st.videoCursor (cin ++ cloop ++ cout)).2, st.audioCursor, seg.duration⟩]⟩) := by
  cases hk : seg.kind with
  | idle =>
    left
    cases hsel : selectCategory .idle seg.duration inv with
    | error e => simp [stepSegment, hk, hsel] at h
    | ok clips =>
      refine ⟨clips, rfl, rfl, ?_⟩
      rw [stepSegment_idle_eq inv st seg hk clips hsel] at h
      simpa using h.symm
  | talk =>
    right
    cases h1 : selectCategory .idleToSpeech 0 inv with
    | error e => simp [stepSegment, hk, h1] at h
    | ok cin =>
      cases h2 : selectSpeechLoop seg.duration inv with
      | error e => simp [stepSegment, hk, h1, h2] at h
      | ok cloop =>
        cases h3 : selectCategory .speechToIdle 0 inv with
        | error e => simp [stepSegment, hk, h1, h2, h3] at h
        | ok cout =>
          refine ⟨cin, cloop, cout, rfl, rfl, rfl, rfl, ?_⟩
          rw [stepSegment_talk_eq inv st seg hk cin cloop cout h1 h2 h3] at h
          simpa using h.symm

lemma stepSegment_shape (inv : List ClipAsset) (st : PlanState) (seg : AudioSegment)
    (st2 : PlanState) (hshape : PlanShape st)
    (h : stepSegment inv st seg = .ok st2) : PlanShape st2 := by
  rcases hshape with ⟨hfrom, hcur⟩
  rcases stepSegment_cases inv st seg st2 h with
    ⟨clips, _, _, rfl⟩ | ⟨cin, cloop, cout, _, _, _, _, rfl⟩
  · exact shape_append_run st clips hfrom hcur
  · exact shape_append_run st (cin ++ cloop ++ cout) hfrom hcur

lemma planFold_shape (inv : List ClipAsset) :
    ∀ (segs : List AudioSegment) (st st2 : PlanState),
      PlanShape st → planFold inv st segs = .ok st2 → PlanShape st2
  | [], st, st2, hs, h => by
      simp only [planFold, PlanResult.ok.injEq] at h
      exact h ▸ hs
  | seg :: rest, st, st2, hs, h => by
      cases hstep : stepSegment inv st seg with
      | error e => simp [planFold, hstep] at h
      | ok stm =>
        simp only [planFold, hstep] at h
        exact planFold_shape inv rest stm st2 (stepSegment_shape inv st seg stm hs hstep) h

/-- C3: in every plan returned by the planner, the placement list is
gapless and starts at zero: the first placement starts at 0 and each
placement starts exactly where the previous one's clip ends. -/
theorem plan_placements_contiguous (segs : List AudioSegment) (inv : List ClipAsset)
    (plan : TimelinePlan) (h : buildTimelinePlan segs inv = .ok plan) :
    PlacementsFrom 0 plan.placements := by
  cases hf : planFold inv ⟨0, 0, [], []⟩ segs with
  | error e => simp [buildTimelinePlan, hf] at h
  | ok st =>
    simp only [buildTimelinePlan, hf, PlanResult.ok.injEq] at h
    have hshape : PlanShape st :=
      planFold_shape inv segs ⟨0, 0, [], []⟩ st ⟨trivial, by simp [placementsTotal]⟩ hf
    rw [← h]
    exact hshape.1

/-- Witness for C3 at a concrete one-segment input. -/
theorem plan_placements_contiguous_witness :
    PlacementsFrom 0
      (TimelinePlan.mk [⟨⟨"a", "a", 1, .idle⟩, 0⟩] [] 1).placements :=
  plan_placements_contiguous [⟨"s0", .idle, 0, 1⟩] [⟨"a", "a", 1, .idle⟩]
    (TimelinePlan.mk [⟨⟨"a", "a", 1, .idle⟩, 0⟩] [] 1)
    (by norm_num [buildTimelinePlan, planFold, stepSegment, selectCategory, clipsOfType,
      repeatToCover, loopCount, placeRun, Rat.ceil, List.filter])

lemma sumDurations_append (a b : List ClipAsset) :
    sumDurations (a ++ b) = sumDurations a + sumDurations b := by
  simp [sumDurations]

lemma sumDurations_replicate (n : ℕ) (c : ClipAsset) :
    sumDurations (List.replicate n c) = (n : ℚ) * c.duration := by
  induction n with
  | zero => simp [sumDurations]
  | succ n ih =>
    simp only [List.replicate_succ, sumDurations, List.map_cons, List.sum_cons] at ih ⊢
    rw [ih]
    push_cast
    ring

lemma sumDurations_nonneg (cs : List ClipAsset) (h : ∀ c ∈ cs, 0 ≤ c.duration) :
    0 ≤ sumDurations cs := by
  refine List.sum_nonneg ?_
  intro x hx
  obtain ⟨c, hc, rfl⟩ := List.mem_map.mp hx
  exact h c hc

lemma repeatToCover_mem (c : ClipAsset) (target : ℚ) :
    ∀ x ∈ repeatToCover c target, x = c := by
  rw [repeatToCover]
  split
  · simp
  · intro x hx
    exact List.eq_of_mem_replicate hx

lemma rat_le_ceil (q : ℚ) : q ≤ (Rat.ceil q : ℚ) := by
  rw [Rat.ceil]
  split
  · next h =>
    have hq : (q.num : ℚ) = q := by
      have hd := Rat.num_div_den q
      rw [h] at hd
      simpa using hd
    exact le_of_eq hq.symm
  · next h =>
    have hlt : q < (⌊q⌋ : ℚ) + 1 := Int.lt_floor_add_one q
    have hf : ⌊q⌋ = q.num / (q.den : ℤ) := Rat.floor_def
    rw [hf] at hlt
    push_cast at hlt ⊢
    linarith

lemma repeatToCover_covers (c : ClipAsset) (target : ℚ) (hc : 0 < c.duration) :
    target ≤ sumDurations (repeatToCover c target) := by
  rw [repeatToCover, if_neg (not_le.mpr hc), sumDurations_replicate]
  by_cases ht : 0 < target
  · have hq : (0 : ℚ) < ((Rat.ceil (target / c.duration) : ℤ) : ℚ) :=
      lt_of_lt_of_le (div_pos ht hc) (rat_le_ceil _)
    have hc0 : (0 : ℤ) ≤ Rat.ceil (target / c.duration) := by exact_mod_cast le_of_lt hq
    have hcast : ((Int.toNat (Rat.ceil (target / c.duration)) : ℕ) : ℚ) =
        ((Rat.ceil (target / c.duration) : ℤ) : ℚ) := by
      rw [← Int.cast_natCast, Int.toNat_of_nonneg hc0]
    have hmax : ((Int.toNat (Rat.ceil (target / c.duration)) : ℕ) : ℚ) ≤
        ((loopCount target c.duration : ℕ) : ℚ) := by
      exact_mod_cast Nat.le_max_right 1 _
    have hdiv : target / c.duration ≤ ((loopCount target c.duration : ℕ) : ℚ) := by
      refine le_trans ?_ hmax
      rw [hcast]
      exact rat_le_ceil _
    calc target = target / c.duration * c.duration := (div_mul_cancel₀ target (ne_of_gt hc)).symm
      _ ≤ ((loopCount target c.duration : ℕ) : ℚ) * c.duration :=
          mul_le_mul_of_nonneg_right hdiv (le_of_lt hc)
  · push_neg at ht
    have h1 : (1 : ℚ) ≤ ((loopCount target c.duration : ℕ) : ℚ) := by
      exact_mod_cast Nat.le_max_left 1 (Int.toNat (Rat.ceil (target / c.duration)))
    nlinarith

lemma repeatToCover_pos (c : ClipAsset) (target : ℚ) (hc : 0 < c.duration) :
    0 ≤ sumDurations (repeatToCover c target) := by
  refine sumDurations_nonneg _ ?_
  intro x hx
  rw [repeatToCover_mem c target x hx]
  exact le_of_lt hc

lemma selectCategory_ok_mem (t : MotionType) (target : ℚ) (inv : List ClipAsset)
    (clips : List ClipAsset) (h : selectCategory t target inv = .ok clips) :
    ∃ c, c ∈ inv ∧ c.type = t ∧ clips = repeatToCover c target := by
  cases hf : clipsOfType t inv with
  | nil => simp [selectCategory, hf] at h
  | cons c rest =>
    simp only [selectCategory, hf, PlanResult.ok.injEq] at h
    have hmem : c ∈ clipsOfType t inv := hf ▸ List.mem_cons_self c rest
    rw [clipsOfType] at hmem
    have hmem2 := List.mem_filter.mp hmem
    exact ⟨c, hmem2.1, of_decide_eq_true hmem2.2, h.symm⟩

lemma selectSpeechLoop_ok_mem (target : ℚ) (inv : List ClipAsset)
    (clips : List ClipAsset) (h : selectSpeechLoop target inv = .ok clips) :
    ∃ c, c ∈ inv ∧ clips = repeatToCover c target := by
  cases hf : clipsOfType .speechLoopSmall inv with
  | cons c rest =>
    simp only [selectSpeechLoop, hf, PlanResult.ok.injEq] at h
    have hmem : c ∈ clipsOfType .speechLoopSmall inv := hf ▸ List.mem_cons_self c rest
    rw [clipsOfType] at hmem
    exact ⟨c, List.mem_of_mem_filter hmem, h.symm⟩
  | nil =>
    cases hg : clipsOfType .speechLoopLarge inv with
    | nil => simp [selectSpeechLoop, hf, hg] at h
    | cons c rest =>
      simp only [selectSpeechLoop, hf, hg, PlanResult.ok.injEq] at h
      have hmem : c ∈ clipsOfType .speechLoopLarge inv := hg ▸ List.mem_cons_self c rest
      rw [clipsOfType] at hmem
      exact ⟨c, List.mem_of_mem_filter hmem, h.symm⟩

lemma getLast?_concat_eq {α : Type} (l : List α) (a : α) : (l ++ [a]).getLast? = some a := by
  induction l with
  | nil => rfl
  | cons x xs ih =>
    cases xs with
    | nil => rfl
    | cons y ys => simpa using ih

lemma stepSegment_drift (inv : List ClipAsset) (st : PlanState) (seg : AudioSegment)
    (st2 : PlanState) (hpos : ∀ c ∈ inv, 0 < c.duration)
    (h : stepSegment inv st seg = .ok st2) :
    st.videoCursor - st.audioCursor ≤ st2.videoCursor - st2.audioCursor ∧
    (st2.talkPlans = st.talkPlans ∨
      st2.talkPlans = st.talkPlans ++
        [⟨seg.id, st.videoCursor, st2.videoCursor, st.audioCursor, seg.duration⟩]) := by
  rcases stepSegment_cases inv st seg st2 h with
    ⟨clips, hk, hsel, rfl⟩ | ⟨cin, cloop, cout, hk, h1, h2, h3, rfl⟩
  · obtain ⟨c, hcmem, hct, rfl⟩ := selectCategory_ok_mem _ _ _ _ hsel
    have hc : 0 < c.duration := hpos c hcmem
    have hcov := repeatToCover_covers c seg.duration hc
    refine ⟨?_, Or.inl rfl⟩
    dsimp only
    rw [placeRun_end]
    linarith
  · obtain ⟨ci, hciMem, _, rfl⟩ := selectCategory_ok_mem _ _ _ _ h1
    obtain ⟨cl, hclMem, rfl⟩ := selectSpeechLoop_ok_mem _ _ _ h2
    obtain ⟨co, hcoMem, _, rfl⟩ := selectCategory_ok_mem _ _ _ _ h3
    have hin : 0 ≤ sumDurations (repeatToCover ci 0) :=
      repeatToCover_pos ci 0 (hpos ci hciMem)
    have hLoop : seg.duration ≤ sumDurations (repeatToCover cl seg.duration) :=
      repeatToCover_covers cl seg.duration (hpos cl hclMem)
    have hout : 0 ≤ sumDurations (repeatToCover co 0) :=
      repeatToCover_pos co 0 (hpos co hcoMem)
    refine ⟨?_, Or.inr rfl⟩
    dsimp only
    rw [placeRun_end, sumDurations_append, sumDurations_append]
    linarith

/-- The drift invariant behind C4: the running drift is non-negative and
every recorded talk timing's drift is non-negative, bounded by the
running drift, and non-decreasing along the list. -/
def DriftOrdered (st : PlanState) : Prop :=
  0 ≤ st.videoCursor - st.audioCursor ∧
  (∀ tp ∈ st.talkPlans, 0 ≤ tp.videoStart - tp.audioStart) ∧
  (∀ tp ∈ st.talkPlans, tp.videoStart - tp.audioStart ≤ st.videoCursor - st.audioCursor) ∧
  List.Chain' (fun a b => a.videoStart - a.audioStart ≤ b.videoStart - b.audioStart) st.talkPlans

lemma stepSegment_driftOrdered (inv : List ClipAsset) (st : PlanState) (seg : AudioSegment)
    (st2 : PlanState) (hpos : ∀ c ∈ inv, 0 < c.duration)
    (ho : DriftOrdered st) (h : stepSegment inv st seg = .ok st2) :
    DriftOrdered st2 := by
  obtain ⟨hd, hcase⟩ := stepSegment_drift inv st seg st2 hpos h
  rcases ho with ⟨h0, hnn, hub, hch⟩
  rcases hcase with heq | heq
  · exact ⟨le_trans h0 hd, heq ▸ hnn, fun tp htp => le_trans (hub tp (heq ▸ htp)) hd, heq ▸ hch⟩
  · refine ⟨le_trans h0 hd, ?_, ?_, ?_⟩
    · intro tp htp
      rw [heq] at htp
      rcases List.mem_append.mp htp with hin | hnew
      · exact hnn tp hin
      · rw [List.mem_singleton.mp hnew]
        exact h0
    · intro tp htp
      rw [heq] at htp
      rcases List.mem_append.mp htp with hin | hnew
      · exact le_trans (hub tp hin) hd
      · rw [List.mem_singleton.mp hnew]
        exact hd
    · rw [heq]
      refine List.chain'_append.mpr ⟨hch, List.chain'_singleton _, ?_⟩
      intro x hx y hy
      have hxmem : x ∈ st.talkPlans := List.mem_of_mem_getLast? hx
      have hy2 : y = ⟨seg.id, st.videoCursor, st2.videoCursor, st.audioCursor, seg.duration⟩ :=
        (by simpa using hy : _ = y).symm
      rw [hy2]
      exact hub x hxmem

lemma planFold_driftOrdered (inv : List ClipAsset) (hpos : ∀ c ∈ inv, 0 < c.duration) :
    ∀ (segs : List AudioSegment) (st st2 : PlanState),
      DriftOrdered st → planFold inv st segs = .ok st2 → DriftOrdered st2
  | [], st, st2, ho, h => by
      simp only [planFold, PlanResult.ok.injEq] at h
      exact h ▸ ho
  | seg :: rest, st, st2, ho, h => by
      cases hstep : stepSegment inv st seg with
      | error e => simp [planFold, hstep] at h
      | ok stm =>
        simp only [planFold, hstep] at h
        exact planFold_driftOrdered inv hpos rest stm st2
          (stepSegment_driftOrdered inv st seg stm hpos ho hstep) h

/-- C4: in every plan built from an inventory of positive-duration clips,
every talk timing's drift `videoStart - audioStart` is non-negative, and
the drift is non-decreasing across successive talk timings in list
order: surplus video duration accumulates and is never caught up. -/
theorem plan_drift_monotone (segs : List AudioSegment) (inv : List ClipAsset)
    (plan : TimelinePlan) (hpos : ∀ c ∈ inv, 0 < c.duration)
    (h : buildTimelinePlan segs inv = .ok plan) :
    (∀ tp ∈ plan.talkPlans, 0 ≤ tp.videoStart - tp.audioStart) ∧
    List.Chain' (fun a b => a.videoStart - a.audioStart ≤ b.videoStart - b.audioStart)
      plan.talkPlans := by
  cases hf : planFold inv ⟨0, 0, [], []⟩ segs with
  | error e => simp [buildTimelinePlan, hf] at h
  | ok st =>
    simp only [buildTimelinePlan, hf, PlanResult.ok.injEq] at h
    have hdo : DriftOrdered st :=
      planFold_driftOrdered inv hpos segs ⟨0, 0, [], []⟩ st
        ⟨by norm_num, by simp, by simp, by simp⟩ hf
    rw [← h]
    exact ⟨hdo.2.1, hdo.2.2.2⟩

/-- Witness for C4 at a two-talk-segment input. -/
theorem plan_drift_monotone_witness :
    (∀ tp ∈ (TimelinePlan.mk
        [⟨⟨"b", "b", 1, .idleToSpeech⟩, 0⟩, ⟨⟨"c", "c", 1, .speechLoopSmall⟩, 1⟩,
         ⟨⟨"d", "d", 1, .speechToIdle⟩, 2⟩, ⟨⟨"b", "b", 1, .idleToSpeech⟩, 3⟩,
         ⟨⟨"c", "c", 1, .speechLoopSmall⟩, 4⟩, ⟨⟨"d", "d", 1, .speechToIdle⟩, 5⟩]
        [⟨"t0", 0, 3, 0, 1⟩, ⟨"t1", 3, 6, 1, 1⟩] 6).talkPlans,
      0 ≤ tp.videoStart - tp.audioStart) ∧
    List.Chain' (fun a b => a.videoStart - a.audioStart ≤ b.videoStart - b.audioStart)
      (TimelinePlan.mk
        [⟨⟨"b", "b", 1, .idleToSpeech⟩, 0⟩, ⟨⟨"c", "c", 1, .speechLoopSmall⟩, 1⟩,
         ⟨⟨"d", "d", 1, .speechToIdle⟩, 2⟩, ⟨⟨"b", "b", 1, .idleToSpeech⟩, 3⟩,
         ⟨⟨"c", "c", 1, .speechLoopSmall⟩, 4⟩, ⟨⟨"d", "d", 1, .speechToIdle⟩, 5⟩]
        [⟨"t0", 0, 3, 0, 1⟩, ⟨"t1", 3, 6, 1, 1⟩] 6).talkPlans :=
  plan_drift_monotone
    [⟨"t0", .talk, 0, 1⟩, ⟨"t1", .talk, 1, 1⟩]
    [⟨"b", "b", 1, .idleToSpeech⟩, ⟨"c", "c", 1, .speechLoopSmall⟩, ⟨"d", "d", 1, .speechToIdle⟩]
    (TimelinePlan.mk
      [⟨⟨"b", "b", 1, .idleToSpeech⟩, 0⟩, ⟨⟨"c", "c", 1, .speechLoopSmall⟩, 1⟩,
       ⟨⟨"d", "d", 1, .speechToIdle⟩, 2⟩, ⟨⟨"b", "b", 1, .idleToSpeech⟩, 3⟩,
       ⟨⟨"c", "c", 1, .speechLoopSmall⟩, 4⟩, ⟨⟨"d", "d", 1, .speechToIdle⟩, 5⟩]
      [⟨"t0", 0, 3, 0, 1⟩, ⟨"t1", 3, 6, 1, 1⟩] 6)
    (by intro c hc; fin_cases hc <;> norm_num)
    (by norm_num +decide [buildTimelinePlan, planFold, stepSegment, selectCategory,
      selectSpeechLoop, clipsOfType, repeatToCover, loopCount, placeRun, Rat.ceil, List.filter])

lemma selectCategory_error (t : MotionType) (target : ℚ) (inv : List ClipAsset) (e : PlanError)
    (h : selectCategory t target inv = .error e) :
    e = .missingCategory t ∧ clipsOfType t inv = [] := by
  cases hf : clipsOfType t inv with
  | nil =>
    simp only [selectCategory, hf, PlanResult.error.injEq] at h
    exact ⟨h.symm, rfl⟩
  | cons c rest => simp [selectCategory, hf] at h

lemma selectSpeechLoop_error (target : ℚ) (inv : List ClipAsset) (e : PlanError)
    (h : selectSpeechLoop target inv = .error e) :
    e = .missingCategory .speechLoopSmall ∧ clipsOfType .speechLoopSmall inv = [] := by
  cases hf : clipsOfType .speechLoopSmall inv with
  | cons c rest => simp [selectSpeechLoop, hf] at h
  | nil =>
    cases hg : clipsOfType .speechLoopLarge inv with
    | cons c rest => simp [selectSpeechLoop, hf, hg] at h
    | nil =>
      simp only [selectSpeechLoop, hf, hg, PlanResult.error.injEq] at h
      exact ⟨h.symm, rfl⟩

lemma stepSegment_error (inv : List ClipAsset) (st : PlanState) (seg : AudioSegment)
    (e : PlanError) (h : stepSegment inv st seg = .error e) :
    ∃ t, e = .missingCategory t ∧ clipsOfType t inv = [] := by
  cases hk : seg.kind with
  | idle =>
    cases hsel : selectCategory .idle seg.duration inv with
    | ok clips => simp [stepSegment, hk, hsel] at h
    | error e2 =>
      simp only [stepSegment, hk, hsel, PlanResult.error.injEq] at h
      obtain ⟨he, hnone⟩ := selectCategory_error _ _ _ _ hsel
      exact ⟨.idle, by rw [← h]; exact he, hnone⟩
  | talk =>
    cases h1 : selectCategory .idleToSpeech 0 inv with
    | error e2 =>
      simp only [stepSegment, hk, h1, PlanResult.error.injEq] at h
      obtain ⟨he, hnone⟩ := selectCategory_error _ _ _ _ h1
      exact ⟨.idleToSpeech, by rw [← h]; exact he, hnone⟩
    | ok cin =>
      cases h2 : selectSpeechLoop seg.duration inv with
      | error e2 =>
        simp only [stepSegment, hk, h1, h2, PlanResult.error.injEq] at h
        obtain ⟨he, hnone⟩ := selectSpeechLoop_error _ _ _ h2
        exact ⟨.speechLoopSmall, by rw [← h]; exact he, hnone⟩
      | ok cloop =>
        cases h3 : selectCategory .speechToIdle 0 inv with
        | ok cout => simp [stepSegment, hk, h1, h2, h3] at h
        | error e2 =>
          simp only [stepSegment, hk, h1, h2, h3, PlanResult.error.injEq] at h
          obtain ⟨he, hnone⟩ := selectCategory_error _ _ _ _ h3
          exact ⟨.speechToIdle, by rw [← h]; exact he, hnone⟩

lemma planFold_error (inv : List ClipAsset) :
    ∀ (segs : List AudioSegment) (st : PlanState) (e : PlanError),
      planFold inv st segs = .error e →
      ∃ t, e = .missingCategory t ∧ clipsOfType t inv = []
  | [], st, e, h => by simp [planFold] at h
  | seg :: rest, st, e, h => by
      cases hstep : stepSegment inv st seg with
      | error e2 =>
        simp only [planFold, hstep, PlanResult.error.injEq] at h
        obtain ⟨t, ht, hnone⟩ := stepSegment_error inv st seg e2 hstep
        exact ⟨t, by rw [← h]; exact ht, hnone⟩
      | ok stm =>
        simp only [planFold, hstep] at h
        exact planFold_error inv rest stm e h

lemma selectCategory_some (t : MotionType) (target : ℚ) (inv : List ClipAsset)
    (hne : clipsOfType t inv ≠ []) :
    ∃ cs, selectCategory t target inv = .ok cs := by
  cases hf : clipsOfType t inv with
  | nil => exact absurd hf hne
  | cons c rest => exact ⟨repeatToCover c target, by simp [selectCategory, hf]⟩

lemma selectSpeechLoop_some (target : ℚ) (inv : List ClipAsset)
    (hne : clipsOfType .speechLoopSmall inv ≠ [] ∨ clipsOfType .speechLoopLarge inv ≠ []) :
    ∃ cs, selectSpeechLoop target inv = .ok cs := by
  cases hf : clipsOfType .speechLoopSmall inv with
  | cons c rest => exact ⟨repeatToCover c target, by simp [selectSpeechLoop, hf]⟩
  | nil =>
    cases hg : clipsOfType .speechLoopLarge inv with
    | cons c rest => exact ⟨repeatToCover c target, by simp [selectSpeechLoop, hf, hg]⟩
    | nil =>
      rcases hne with hs | hl
      · exact absurd hf hs
      · exact absurd hg hl

lemma stepSegment_some (inv : List ClipAsset) (st : PlanState) (seg : AudioSegment)
    (hidle : clipsOfType .idle inv ≠ []) (hin : clipsOfType .idleToSpeech inv ≠ [])
    (hloop : clipsOfType .speechLoopSmall inv ≠ [] ∨ clipsOfType .speechLoopLarge inv ≠ [])
    (hout : clipsOfType .speechToIdle inv ≠ []) :
    ∃ st2, stepSegment inv st seg = .ok st2 := by
  cases hk : seg.kind with
  | idle =>
    obtain ⟨cs, hcs⟩ := selectCategory_some .idle seg.duration inv hidle
    exact ⟨_, stepSegment_idle_eq inv st seg hk cs hcs⟩
  | talk =>
    obtain ⟨ci, h1⟩ := selectCategory_some .idleToSpeech 0 inv hin
    obtain ⟨cl, h2⟩ := selectSpeechLoop_some seg.duration inv hloop
    obtain ⟨co, h3⟩ := selectCategory_some .speechToIdle 0 inv hout
    exact ⟨_, stepSegment_talk_eq inv st seg hk ci cl co h1 h2 h3⟩

lemma planFold_some (inv : List ClipAsset)
    (hidle : clipsOfType .idle inv ≠ []) (hin : clipsOfType .idleToSpeech inv ≠ [])
    (hloop : clipsOfType .speechLoopSmall inv ≠ [] ∨ clipsOfType .speechLoopLarge inv ≠ [])
    (hout : clipsOfType .speechToIdle inv ≠ []) :
    ∀ (segs : List AudioSegment) (st : PlanState), ∃ st2, planFold inv st segs = .ok st2
  | [], st => ⟨st, rfl⟩
  | seg :: rest, st => by
      obtain ⟨stm, hm⟩ := stepSegment_some inv st seg hidle hin hloop hout
      obtain ⟨st2, h2⟩ := planFold_some inv hidle hin hloop hout rest stm
      exact ⟨st2, by simp [planFold, hm, h2]⟩

/-- C5: requesting a plan with a talk segment but no `speechToIdle` clip
fails with `MissingCategory speechToIdle` and returns no partial plan;
with both transition categories missing, the error names the first one
the planner needs (`idleToSpeech`); every error a plan run can produce is
a `MissingCategory` for a category truly absent from the inventory; and
when an inventory covers all required categories, planning never fails. -/
theorem plan_missing_category_spec :
    (buildTimelinePlan
        [⟨"s0", .idle, 0, 1⟩, ⟨"s1", .talk, 1, 1⟩, ⟨"s2", .idle, 2, 1⟩]
        [⟨"a", "a", 1, .idle⟩, ⟨"b", "b", 1, .idleToSpeech⟩, ⟨"c", "c", 1, .speechLoopSmall⟩] =
      .error (.missingCategory .speechToIdle)) ∧
    (buildTimelinePlan
        [⟨"s0", .idle, 0, 1⟩, ⟨"s1", .talk, 1, 1⟩, ⟨"s2", .idle, 2, 1⟩]
        [⟨"a", "a", 1, .idle⟩, ⟨"c", "c", 1, .speechLoopSmall⟩] =
      .error (.missingCategory .idleToSpeech)) ∧
    (∀ (segs : List AudioSegment) (inv : List ClipAsset) (t : MotionType),
      buildTimelinePlan segs inv = .error (.missingCategory t) → clipsOfType t inv = []) ∧
    (∀ (segs : List AudioSegment) (inv : List ClipAsset) (e : PlanError),
      clipsOfType .idle inv ≠ [] → clipsOfType .idleToSpeech inv ≠ [] →
      (clipsOfType .speechLoopSmall inv ≠ [] ∨ clipsOfType .speechLoopLarge inv ≠ []) →
      clipsOfType .speechToIdle inv ≠ [] →
      buildTimelinePlan segs inv ≠ .error e) := by
  refine ⟨?_, ?_, ?_, ?_⟩
  · norm_num +decide [buildTimelinePlan, planFold, stepSegment, selectCategory,
      selectSpeechLoop, clipsOfType, repeatToCover, loopCount, placeRun, Rat.ceil, List.filter]
  · norm_num +decide [buildTimelinePlan, planFold, stepSegment, selectCategory,
      selectSpeechLoop, clipsOfType, repeatToCover, loopCount, placeRun, Rat.ceil, List.filter]
  · intro segs inv t h
    cases hf : planFold inv ⟨0, 0, [], []⟩ segs with
    | ok st => simp [buildTimelinePlan, hf] at h
    | error e2 =>
      simp only [buildTimelinePlan, hf, PlanResult.error.injEq] at h
      obtain ⟨t2, ht2, hnone⟩ := planFold_error inv segs ⟨0, 0, [], []⟩ e2 hf
      rw [h] at ht2
      have htt : t2 = t := by
        injection ht2.symm
      rw [← htt]
      exact hnone
  · intro segs inv e hidle hin hloop hout h
    obtain ⟨st2, h2⟩ := planFold_some inv hidle hin hloop hout segs ⟨0, 0, [], []⟩
    rw [buildTimelinePlan, h2] at h
    exact absurd h (by simp)

/-- Witness for C5: the absent category named by a failing run really has
no clip in that inventory. -/
theorem plan_missing_category_spec_witness :
    clipsOfType .speechToIdle
      [⟨"a", "a", 1, .idle⟩, ⟨"b", "b", 1, .idleToSpeech⟩, ⟨"c", "c", 1, .speechLoopSmall⟩] =
      [] :=
  plan_missing_category_spec.2.2.1
    [⟨"s1", .talk, 0, 1⟩]
    [⟨"a", "a", 1, .idle⟩, ⟨"b", "b", 1, .idleToSpeech⟩, ⟨"c", "c", 1, .speechLoopSmall⟩]
    .speechToIdle
    (by norm_num +decide [buildTimelinePlan, planFold, stepSegment, selectCategory,
      selectSpeechLoop, clipsOfType, repeatToCover, loopCount, placeRun, Rat.ceil, List.filter])

lemma placementsFrom_getLast :
    ∀ (ps : List TimelinePlacement) (t : ℚ) (p : TimelinePlacement),
      PlacementsFrom t ps → ps.getLast? = some p →
      p.start + p.clip.duration = t + placementsTotal ps
  | [], _, _, _, h => by simp at h
  | [q], t, p, hp, h => by
      simp only [List.getLast?_singleton, Option.some.injEq] at h
      rcases hp with ⟨hst, _⟩
      subst h
      simp only [placementsTotal, List.map_cons, List.map_nil, List.sum_cons, List.sum_nil]
      rw [hst]
      ring
  | q :: q2 :: rest, t, p, hp, h => by
      rcases hp with ⟨hst, hrest⟩
      have h2 : (q2 :: rest).getLast? = some p := h
      have ih := placementsFrom_getLast (q2 :: rest) (t + q.clip.duration) p hrest h2
      rw [ih]
      simp only [placementsTotal, List.map_cons, List.sum_cons]
      ring

lemma planFold_last_talk (inv : List ClipAsset) :
    ∀ (segs : List AudioSegment) (st st2 : PlanState) (sl : AudioSegment),
      planFold inv st segs = .ok st2 → segs.getLast? = some sl → sl.kind = .talk →
      ∃ tl, st2.talkPlans.getLast? = some tl ∧ tl.videoEnd = st2.videoCursor
  | [], _, _, _, _, hlast, _ => by simp at hlast
  | [seg], st, st2, sl, h, hlast, hk => by
      simp only [List.getLast?_singleton, Option.some.injEq] at hlast
      subst hlast
      cases hstep : stepSegment inv st seg with
      | error e => simp [planFold, hstep] at h
      | ok stm =>
        simp only [planFold, hstep, PlanResult.ok.injEq] at h
        subst h
        rcases stepSegment_cases inv st seg stm hstep with
          ⟨clips, hki, _, _⟩ | ⟨cin, cloop, cout, hkt, _, _, _, rfl⟩
        · rw [hki] at hk
          exact absurd hk (by simp)
        · exact ⟨_, getLast?_concat_eq _ _, rfl⟩
  | seg :: seg2 :: rest, st, st2, sl, h, hlast, hk => by
      cases hstep : stepSegment inv st seg with
      | error e => simp [planFold, hstep] at h
      | ok stm =>
        simp only [planFold, hstep] at h
        have hlast2 : (seg2 :: rest).getLast? = some sl := hlast
        exact planFold_last_talk inv (seg2 :: rest) stm st2 sl h hlast2 hk

/-- C7 (amended): in every plan built, the total duration equals the sum
of all placements' clip durations and equals the end of the final
placement; and when the final segment handed to the planner is a talk
segment, the total duration also equals the video end of the last talk
timing. (As stated the claim fails whenever an idle segment follows the
last talk segment, because trailing idle placements extend the total past
the last talk timing's video end — see the counterexample.) -/
theorem plan_total_duration_props (segs : List AudioSegment) (inv : List ClipAsset)
    (plan : TimelinePlan) (h : buildTimelinePlan segs inv = .ok plan) :
    plan.totalDuration = placementsTotal plan.placements ∧
    (∀ p, plan.placements.getLast? = some p →
      p.start + p.clip.duration = plan.totalDuration) ∧
    (∀ sl, segs.getLast? = some sl → sl.kind = .talk →
      ∃ tl, plan.talkPlans.getLast? = some tl ∧ tl.videoEnd = plan.totalDuration) := by
  cases hf : planFold inv ⟨0, 0, [], []⟩ segs with
  | error e => simp [buildTimelinePlan, hf] at h
  | ok st =>
    simp only [buildTimelinePlan, hf, PlanResult.ok.injEq] at h
    have hshape : PlanShape st :=
      planFold_shape inv segs ⟨0, 0, [], []⟩ st ⟨trivial, by simp [placementsTotal]⟩ hf
    subst h
    refine ⟨hshape.2, ?_, ?_⟩
    · intro p hp
      have hlast := placementsFrom_getLast st.placements 0 p hshape.1 hp
      rw [hlast, hshape.2]
      show (0 : ℚ) + placementsTotal st.placements = placementsTotal st.placements
      ring
    · intro sl hsl hk
      exact planFold_last_talk inv segs ⟨0, 0, [], []⟩ st sl hf hsl hk

/-- Counterexample to C7 as stated: a talk segment followed by a trailing
idle segment yields a plan whose total duration (4 s) differs from the
last (and only) talk timing's video end (3 s). -/
theorem plan_total_duration_counterexample :
    buildTimelinePlan
      [⟨"t0", .talk, 0, 1⟩, ⟨"i1", .idle, 1, 1⟩]
      [⟨"a", "a", 1, .idle⟩, ⟨"b", "b", 1, .idleToSpeech⟩,
       ⟨"c", "c", 1, .speechLoopSmall⟩, ⟨"d", "d", 1, .speechToIdle⟩] =
      .ok (TimelinePlan.mk
        [⟨⟨"b", "b", 1, .idleToSpeech⟩, 0⟩, ⟨⟨"c", "c", 1, .speechLoopSmall⟩, 1⟩,
         ⟨⟨"d", "d", 1, .speechToIdle⟩, 2⟩, ⟨⟨"a", "a", 1, .idle⟩, 3⟩]
        [⟨"t0", 0, 3, 0, 1⟩] 4) ∧
    (TimelinePlan.mk
        [⟨⟨"b", "b", 1, .idleToSpeech⟩, 0⟩, ⟨⟨"c", "c", 1, .speechLoopSmall⟩, 1⟩,
         ⟨⟨"d", "d", 1, .speechToIdle⟩, 2⟩, ⟨⟨"a", "a", 1, .idle⟩, 3⟩]
        [⟨"t0", 0, 3, 0, 1⟩] 4).talkPlans.getLast? = some ⟨"t0", 0, 3, 0, 1⟩ ∧
    (TalkPlan.mk "t0" 0 3 0 1).videoEnd ≠
      (TimelinePlan.mk
        [⟨⟨"b", "b", 1, .idleToSpeech⟩, 0⟩, ⟨⟨"c", "c", 1, .speechLoopSmall⟩, 1⟩,
         ⟨⟨"d", "d", 1, .speechToIdle⟩, 2⟩, ⟨⟨"a", "a", 1, .idle⟩, 3⟩]
        [⟨"t0", 0, 3, 0, 1⟩] 4).totalDuration := by
  refine ⟨?_, rfl, by norm_num⟩
  norm_num +decide [buildTimelinePlan, planFold, stepSegment, selectCategory,
    selectSpeechLoop, clipsOfType, repeatToCover, loopCount, placeRun, Rat.ceil, List.filter]

/-- Witness for the amended C7 at a single-talk-segment input whose plan
ends exactly at the last talk timing's video end. -/
theorem plan_total_duration_props_witness :
    (TimelinePlan.mk
        [⟨⟨"b", "b", 1, .idleToSpeech⟩, 0⟩, ⟨⟨"c", "c", 1, .speechLoopSmall⟩, 1⟩,
         ⟨⟨"d", "d", 1, .speechToIdle⟩, 2⟩]
        [⟨"t0", 0, 3, 0, 1⟩] 3).totalDuration =
      placementsTotal (TimelinePlan.mk
        [⟨⟨"b", "b", 1, .idleToSpeech⟩, 0⟩, ⟨⟨"c", "c", 1, .speechLoopSmall⟩, 1⟩,
         ⟨⟨"d", "d", 1, .speechToIdle⟩, 2⟩]
        [⟨"t0", 0, 3, 0, 1⟩] 3).placements ∧
    (∀ p, (TimelinePlan.mk
        [⟨⟨"b", "b", 1, .idleToSpeech⟩, 0⟩, ⟨⟨"c", "c", 1, .speechLoopSmall⟩, 1⟩,
         ⟨⟨"d", "d", 1, .speechToIdle⟩, 2⟩]
        [⟨"t0", 0, 3, 0, 1⟩] 3).placements.getLast? = some p →
      p.start + p.clip.duration = (TimelinePlan.mk
        [⟨⟨"b", "b", 1, .idleToSpeech⟩, 0⟩, ⟨⟨"c", "c", 1, .speechLoopSmall⟩, 1⟩,
         ⟨⟨"d", "d", 1, .speechToIdle⟩, 2⟩]
        [⟨"t0", 0, 3, 0, 1⟩] 3).totalDuration) ∧
    (∀ sl, [(⟨"t0", .talk, 0, 1⟩ : AudioSegment)].getLast? = some sl → sl.kind = .talk →
      ∃ tl, (TimelinePlan.mk
        [⟨⟨"b", "b", 1, .idleToSpeech⟩, 0⟩, ⟨⟨"c", "c", 1, .speechLoopSmall⟩, 1⟩,
         ⟨⟨"d", "d", 1, .speechToIdle⟩, 2⟩]
        [⟨"t0", 0, 3, 0, 1⟩] 3).talkPlans.getLast? = some tl ∧
        tl.videoEnd = (TimelinePlan.mk
        [⟨⟨"b", "b", 1, .idleToSpeech⟩, 0⟩, ⟨⟨"c", "c", 1, .speechLoopSmall⟩, 1⟩,
         ⟨⟨"d", "d", 1, .speechToIdle⟩, 2⟩]
        [⟨"t0", 0, 3, 0, 1⟩] 3).totalDuration) :=
  plan_total_duration_props [⟨"t0", .talk, 0, 1⟩]
    [⟨"a", "a", 1, .idle⟩, ⟨"b", "b", 1, .idleToSpeech⟩,
     ⟨"c", "c", 1, .speechLoopSmall⟩, ⟨"d", "d", 1, .speechToIdle⟩]
    (TimelinePlan.mk
      [⟨⟨"b", "b", 1, .idleToSpeech⟩, 0⟩, ⟨⟨"c", "c", 1, .speechLoopSmall⟩, 1⟩,
       ⟨⟨"d", "d", 1, .speechToIdle⟩, 2⟩]
      [⟨"t0", 0, 3, 0, 1⟩] 3)
    (by norm_num +decide [buildTimelinePlan, planFold, stepSegment, selectCategory,
      selectSpeechLoop, clipsOfType, repeatToCover, loopCount, placeRun, Rat.ceil, List.filter])

/-- C8: the planner is deterministic — two runs on equal segment lists
and equal clip inventories (same elements, same order) return equal
plans. In this embedding `buildTimelinePlan` is a pure function of its
two arguments, matching the spec's synchronous, shared-state-free
design, so determinism is definitional. -/
theorem plan_deterministic (segs1 segs2 : List AudioSegment) (inv1 inv2 : List ClipAsset)
    (hs : segs1 = segs2) (hi : inv1 = inv2) :
    buildTimelinePlan segs1 inv1 = buildTimelinePlan segs2 inv2 := by
  rw [hs, hi]

/-- Witness for C8 at concrete equal inputs. -/
theorem plan_deterministic_witness :
    buildTimelinePlan [⟨"s0", .idle, 0, 1⟩] [⟨"a", "a", 1, .idle⟩] =
      buildTimelinePlan [⟨"s0", .idle, 0, 1⟩] [⟨"a", "a", 1, .idle⟩] :=
  plan_deterministic _ _ _ _ rfl rfl

/-- C9: the motion categories are exactly the five listed values — they
are pairwise distinct, every `MotionType` is one of them, and every clip
asset's category is one of them. -/
theorem motion_categories_exactly_five :
    [MotionType.idle, .idleToSpeech, .speechLoopLarge, .speechLoopSmall, .speechToIdle].Nodup ∧
    (∀ m : MotionType,
      m ∈ [MotionType.idle, .idleToSpeech, .speechLoopLarge, .speechLoopSmall, .speechToIdle]) ∧
    (∀ c : ClipAsset,
      c.type = .idle ∨ c.type = .idleToSpeech ∨ c.type = .speechLoopLarge ∨
        c.type = .speechLoopSmall ∨ c.type = .speechToIdle) := by
  refine ⟨by decide, ?_, ?_⟩
  · intro m
    cases m <;> simp
  · intro c
    cases hc : c.type
    · exact Or.inl rfl
    · exact Or.inr (Or.inl rfl)
    · exact Or.inr (Or.inr (Or.inl rfl))
    · exact Or.inr (Or.inr (Or.inr (Or.inl rfl)))
    · exact Or.inr (Or.inr (Or.inr (Or.inr rfl)))

/-- Witness for C9 at a concrete clip. -/
theorem motion_categories_exactly_five_witness :
    (ClipAsset.mk "a" "a" 1 .idle).type = .idle ∨
    (ClipAsset.mk "a" "a" 1 .idle).type = .idleToSpeech ∨
    (ClipAsset.mk "a" "a" 1 .idle).type = .speechLoopLarge ∨
    (ClipAsset.mk "a" "a" 1 .idle).type = .speechLoopSmall ∨
    (ClipAsset.mk "a" "a" 1 .idle).type = .speechToIdle :=
  motion_categories_exactly_five.2.2 ⟨"a", "a", 1, .idle⟩

/-- C10: every clip asset the UI constructs has a strictly positive
duration — a non-finite or non-positive metadata reading is replaced by
1 second — so an inventory built through `loadClipAsset` never hands a
zero- or negative-duration clip to `buildTimelinePlan`. -/
theorem loadClipAsset_positive_duration :
    (∀ (idv nm : String) (t : MotionType) (m : MetaDuration),
      0 < (loadClipAsset idv nm t m).duration) ∧
    (∀ inputs : List (String × String × MotionType × MetaDuration),
      ∀ c ∈ inputs.map (fun x => loadClipAsset x.1 x.2.1 x.2.2.1 x.2.2.2),
        0 < c.duration) := by
  have hpos : ∀ (idv nm : String) (t : MotionType) (m : MetaDuration),
      0 < (loadClipAsset idv nm t m).duration := by
    intro idv nm t m
    cases m with
    | finite v =>
      by_cases hv : 0 < v
      · simp only [loadClipAsset, sanitizeClipDuration, if_pos hv]
        exact hv
      · simp only [loadClipAsset, sanitizeClipDuration, if_neg hv]
        norm_num
    | nonFinite =>
      simp only [loadClipAsset, sanitizeClipDuration]
      norm_num
  refine ⟨hpos, ?_⟩
  intro inputs c hc
  obtain ⟨x, _, rfl⟩ := List.mem_map.mp hc
  exact hpos x.1 x.2.1 x.2.2.1 x.2.2.2

/-- Witness for C10 at a concrete non-finite metadata reading. -/
theorem loadClipAsset_positive_duration_witness :
    0 < (loadClipAsset "c" "clip.mp4" .idle .nonFinite).duration :=
  loadClipAsset_positive_duration.1 "c" "clip.mp4" .idle .nonFinite

/-! ### Realigner lemmas -/

lemma writeAt_length : ∀ (out : List ℚ) (pos : ℕ) (vals : List ℚ),
    (writeAt out pos vals).length = out.length
  | [], _, _ => rfl
  | _ :: _, 0, [] => rfl
  | x :: xs, 0, v :: vs => by
      simp [writeAt, writeAt_length xs 0 vs]
  | x :: xs, Nat.succ p, vals => by
      simp [writeAt, writeAt_length xs p vals]

lemma writeAt_getD_lt : ∀ (out : List ℚ) (pos : ℕ) (vals : List ℚ) (i : ℕ), i < pos →
    (writeAt out pos vals).getD i 0 = out.getD i 0
  | [], _, _, _, _ => by simp [writeAt]
  | _ :: _, 0, [], i, _ => by simp [writeAt]
  | _ :: _, 0, _ :: _, i, h => absurd h (Nat.not_lt_zero i)
  | x :: xs, Nat.succ p, vals, 0, _ => by simp [writeAt]
  | x :: xs, Nat.succ p, vals, Nat.succ i, h => by
      simp only [writeAt, List.getD_cons_succ]
      exact writeAt_getD_lt xs p vals i (Nat.lt_of_succ_lt_succ h)

lemma writeAt_getD_ge : ∀ (out : List ℚ) (pos : ℕ) (vals : List ℚ) (i : ℕ),
    pos + vals.length ≤ i →
    (writeAt out pos vals).getD i 0 = out.getD i 0
  | [], _, _, _, _ => by simp [writeAt]
  | _ :: _, 0, [], i, _ => by simp [writeAt]
  | _ :: _, 0, _ :: vs, 0, h => absurd h (by simp)
  | x :: xs, 0, v :: vs, Nat.succ i, h => by
      simp only [writeAt, List.getD_cons_succ]
      exact writeAt_getD_ge xs 0 vs i (by simp at h; omega)
  | x :: xs, Nat.succ p, vals, 0, h => absurd h (by omega)
  | x :: xs, Nat.succ p, vals, Nat.succ i, h => by
      simp only [writeAt, List.getD_cons_succ]
      exact writeAt_getD_ge xs p vals i (by omega)

lemma writeAt_getD_in : ∀ (out : List ℚ) (pos : ℕ) (vals : List ℚ) (k : ℕ),
    pos + k < out.length → k < vals.length →
    (writeAt out pos vals).getD (pos + k) 0 = vals.getD k 0
  | [], _, _, _, h, _ => by simp at h
  | _ :: _, 0, [], k, _, hk => by simp at hk
  | x :: xs, 0, v :: vs, 0, _, _ => by simp [writeAt]
  | x :: xs, 0, v :: vs, Nat.succ k, h, hk => by
      rw [Nat.zero_add]
      simp only [writeAt, List.getD_cons_succ]
      have ih := writeAt_getD_in xs 0 vs k (by simpa using Nat.lt_of_succ_lt_succ (by simpa using h)) (by simpa using hk)
      rwa [Nat.zero_add] at ih
  | x :: xs, Nat.succ p, vals, k, h, hk => by
      rw [Nat.succ_add]
      simp only [writeAt, List.getD_cons_succ]
      exact writeAt_getD_in xs p vals k (by simp at h; omega) hk

lemma sliceFrom_length (src : List ℚ) (start cnt : ℕ) :
    (sliceFrom src start cnt).length = cnt := by
  simp [sliceFrom]

lemma sliceFrom_getD (src : List ℚ) (start cnt k : ℕ) (hk : k < cnt) :
    (sliceFrom src start cnt).getD k 0 = src.getD (start + k) 0 := by
  rw [sliceFrom, List.getD_eq_getElem _ _ (by simpa using hk)]
  simp

lemma replicate_getD (n i : ℕ) : (List.replicate n (0 : ℚ)).getD i 0 = 0 := by
  rcases lt_or_ge i n with h | h
  · rw [List.getD_eq_getElem _ _ (by simpa using h), List.getElem_replicate]
  · rw [List.getD_eq_default _ _ (by simpa using h)]

lemma alignFold_spec (rate : ℕ) (src : List ℚ) :
    ∀ (talks : List TalkPlan) (out0 : List ℚ),
      (∀ tp ∈ talks, talkVideoEndIdx rate tp ≤ out0.length) →
      List.Pairwise (fun a b => talkVideoEndIdx rate a ≤ talkVideoStartIdx rate b) talks →
      (talks.foldl (writeTalk rate src) out0).length = out0.length ∧
      (∀ tp ∈ talks, ∀ k, k < talkCopyLen rate tp →
        (talks.foldl (writeTalk rate src) out0).getD (talkVideoStartIdx rate tp + k) 0 =
          src.getD (talkAudioStartIdx rate tp + k) 0) ∧
      (∀ i, (∀ tp ∈ talks, i < talkVideoStartIdx rate tp ∨
          talkVideoStartIdx rate tp + talkCopyLen rate tp ≤ i) →
        (talks.foldl (writeTalk rate src) out0).getD i 0 = out0.getD i 0)
  | [], out0, _, _ => ⟨rfl, by simp, fun i _ => rfl⟩
  | tp :: rest, out0, hend, hsep => by
      have hpw := List.pairwise_cons.mp hsep
      have hlen1 : (writeTalk rate src out0 tp).length = out0.length := writeAt_length _ _ _
      have hendr : ∀ tq ∈ rest, talkVideoEndIdx rate tq ≤ (writeTalk rate src out0 tp).length := by
        intro tq htq
        rw [hlen1]
        exact hend tq (List.mem_cons_of_mem tp htq)
      have ih := alignFold_spec rate src rest (writeTalk rate src out0 tp) hendr hpw.2
      have hcnt_le : talkCopyLen rate tp ≤
          talkVideoEndIdx rate tp - talkVideoStartIdx rate tp := min_le_right _ _
      have hend0 : talkVideoEndIdx rate tp ≤ out0.length := hend tp (List.mem_cons_self tp rest)
      have hwin : ∀ k, k < talkCopyLen rate tp →
          talkVideoStartIdx rate tp + k < out0.length := by
        intro k hk
        omega
      simp only [List.foldl_cons]
      refine ⟨ih.1.trans hlen1, ?_, ?_⟩
      · intro tq htq k hk
        rcases List.mem_cons.mp htq with rfl | hmem
        · have hnotrest : ∀ tq2 ∈ rest,
              talkVideoStartIdx rate tq + k < talkVideoStartIdx rate tq2 ∨
              talkVideoStartIdx rate tq2 + talkCopyLen rate tq2 ≤
                talkVideoStartIdx rate tq + k := by
            intro tq2 htq2
            left
            have hle := hpw.1 tq2 htq2
            omega
          rw [ih.2.2 _ hnotrest]
          rw [writeTalk, writeAt_getD_in out0 _ _ k (hwin k hk)
            (by rw [sliceFrom_length]; exact hk)]
          exact sliceFrom_getD src _ _ k hk
        · exact ih.2.1 tq hmem k hk
      · intro i hi
        have h1 : (rest.foldl (writeTalk rate src) (writeTalk rate src out0 tp)).getD i 0 =
            (writeTalk rate src out0 tp).getD i 0 :=
          ih.2.2 i (fun tq htq => hi tq (List.mem_cons_of_mem tp htq))
        rw [h1]
        rcases hi tp (List.mem_cons_self tp rest) with hlt | hge
        · exact writeAt_getD_lt out0 _ _ i hlt
        · exact writeAt_getD_ge out0 _ _ i (by rw [sliceFrom_length]; exact hge)

/-- C6: the realigner returns a buffer of exactly the planned total
duration (in samples); for every talk timing whose windows are ordered,
disjoint and inside the buffer, the samples written at the video start
equal the source samples at the audio start, the copied length never
reaches the video end index (truncation), and every output position not
covered by any talk timing's write is silence. -/
theorem realign_correct (src : AudioBuffer) (talks : List TalkPlan) (total : ℚ)
    (hend : ∀ tp ∈ talks,
      talkVideoEndIdx src.sampleRate tp ≤ secToIndex src.sampleRate total)
    (hsep : List.Pairwise
      (fun a b => talkVideoEndIdx src.sampleRate a ≤ talkVideoStartIdx src.sampleRate b)
      talks) :
    (buildAlignedAudioBuffer src talks total).samples.length = secToIndex src.sampleRate total ∧
    (∀ tp ∈ talks, talkCopyLen src.sampleRate tp ≤
      talkVideoEndIdx src.sampleRate tp - talkVideoStartIdx src.sampleRate tp) ∧
    (∀ tp ∈ talks, ∀ k, k < talkCopyLen src.sampleRate tp →
      (buildAlignedAudioBuffer src talks total).samples.getD
          (talkVideoStartIdx src.sampleRate tp + k) 0 =
        src.samples.getD (talkAudioStartIdx src.sampleRate tp + k) 0) ∧
    (∀ i, (∀ tp ∈ talks, i < talkVideoStartIdx src.sampleRate tp ∨
        talkVideoStartIdx src.sampleRate tp + talkCopyLen src.sampleRate tp ≤ i) →
      (buildAlignedAudioBuffer src talks total).samples.getD i 0 = 0) := by
  have hend0 : ∀ tp ∈ talks, talkVideoEndIdx src.sampleRate tp ≤
      (List.replicate (secToIndex src.sampleRate total) (0 : ℚ)).length := by
    intro tp htp
    rw [List.length_replicate]
    exact hend tp htp
  have hspec := alignFold_spec src.sampleRate src.samples talks
    (List.replicate (secToIndex src.sampleRate total) 0) hend0 hsep
  refine ⟨?_, fun tp _ => min_le_right _ _, hspec.2.1, ?_⟩
  · rw [show (buildAlignedAudioBuffer src talks total).samples =
      talks.foldl (writeTalk src.sampleRate src.samples)
        (List.replicate (secToIndex src.sampleRate total) 0) from rfl]
    rw [hspec.1, List.length_replicate]
  · intro i hi
    rw [show (buildAlignedAudioBuffer src talks total).samples =
      talks.foldl (writeTalk src.sampleRate src.samples)
        (List.replicate (secToIndex src.sampleRate total) 0) from rfl]
    rw [hspec.2.2 i hi]
    exact replicate_getD _ i

/-- Witness for C6: a one-talk realignment of a three-sample buffer. -/
theorem realign_correct_witness :
    (buildAlignedAudioBuffer ⟨1, [5, 7, 9]⟩ [⟨"t", 1, 3, 0, 2⟩] 3).samples.length =
      secToIndex 1 3 :=
  (realign_correct ⟨1, [5, 7, 9]⟩ [⟨"t", 1, 3, 0, 2⟩] 3
    (by
      intro tp htp
      rw [List.mem_singleton.mp htp]
      norm_num [talkVideoEndIdx, secToIndex])
    (by simp)).1
